import Mathlib

/-!
Verification of the pyxelart repository's two algorithmic cores against its
specification: the transparency-region scanner / sprite-frame cutter of
src/image_cutter.py, and the animated-GIF canvas compositor of
src/video_extract_frames.py.  Pixel buffers are shallowly embedded as total
pixel functions together with explicit dimensions and a mode flag (PIL images
are either RGBA or get converted to RGBA on demand).
-/

namespace Pyx

/-- One RGBA sample; channels are 8-bit values stored as naturals. -/
structure RGBA where
  r : Nat
  g : Nat
  b : Nat
  a : Nat
deriving DecidableEq

/-- Fully transparent black, the fill value PIL uses for new RGBA images and
for out-of-bounds crop areas. -/
def clearPx : RGBA := ⟨0, 0, 0, 0⟩

/-- A pixel buffer: a width, a height, a mode flag (`rgba = true` means the
image is in RGBA mode, otherwise the alpha channel of `pix` is meaningless,
as for a PIL RGB image), and a total pixel function.  Only samples with
`x < width` and `y < height` are part of the image. -/
structure Img where
  width : Nat
  height : Nat
  rgba : Bool
  pix : Nat → Nat → RGBA

instance : Inhabited RGBA := ⟨clearPx⟩

instance : Inhabited Img := ⟨⟨0, 0, true, fun _ _ => clearPx⟩⟩

/-- PIL's `img.convert('RGBA')`: an RGBA image is unchanged; any other mode
keeps the colour channels and gets alpha 255 everywhere. -/
def convertRGBA (img : Img) : Img :=
  if img.rgba then img
  else ⟨img.width, img.height, true, fun x y =>
    let p := img.pix x y
    ⟨p.r, p.g, p.b, 255⟩⟩

/-- Scan direction of the cutter: `h` slices along x (vertical cut lines),
`v` slices along y, mirroring the `direction` argument of image_cutter.py. -/
inductive Direction
  | h
  | v
deriving DecidableEq

/-- Length of the scan axis (`img.width` for `h`, `img.height` for `v`). -/
def axisLen (img : Img) (d : Direction) : Nat :=
  match d with
  | .h => img.width
  | .v => img.height

/-- Length of the perpendicular line tested for opacity. -/
def perpLen (img : Img) (d : Direction) : Nat :=
  match d with
  | .h => img.height
  | .v => img.width

/-- The sample of the converted (RGBA) image at axis position `i`, offset `j`
along the perpendicular line; mirrors `alpha[:, x]` / `alpha[y, :]` access in
`detect_transparent_regions`. -/
def samplePix (img : Img) (d : Direction) (i j : Nat) : RGBA :=
  match d with
  | .h => (convertRGBA img).pix i j
  | .v => (convertRGBA img).pix j i

/-- The `np.any(alpha[:, x] > 0)` test of `detect_transparent_regions`:
does any sample on the perpendicular line at axis index `i` have alpha > 0
(after RGBA conversion)? -/
def nonTransparentLine (img : Img) (d : Direction) (i : Nat) : Bool :=
  (List.range (perpLen img d)).any fun j => decide (0 < (samplePix img d i j).a)

/-- The list `non_transparent_cols` built by `detect_transparent_regions`:
all axis indices whose perpendicular line is non-transparent, in order. -/
def nonTransparentCols (img : Img) (d : Direction) : List Nat :=
  (List.range (axisLen img d)).filter fun i => nonTransparentLine img d i

/-- The grouping loop of `detect_transparent_regions`: walk the remaining
indices with the current run `[start, prev]`; a gap (`col > prev + 1`) closes
the run, otherwise the run is extended to `col`; the final run is emitted at
the end. -/
def groupGo (start prev : Nat) : List Nat → List (Nat × Nat)
  | [] => [(start, prev)]
  | col :: rest =>
    if prev + 1 < col then (start, prev) :: groupGo col col rest
    else groupGo start col rest

/-- "Group consecutive columns to find regions" in
`detect_transparent_regions`: an empty index list yields no regions,
otherwise the grouping loop starts with the singleton run at the head. -/
def groupRegions : List Nat → List (Nat × Nat)
  | [] => []
  | c :: rest => groupGo c c rest

/-- `detect_transparent_regions(img, direction)` of image_cutter.py:
convert to RGBA, collect the non-transparent line indices along the scan
axis, and merge consecutive indices into closed regions `(start, end)`. -/
def detect_transparent_regions (img : Img) (d : Direction) : List (Nat × Nat) :=
  groupRegions (nonTransparentCols img d)

/-- Membership of an index in the union of the closed intervals of a region
list. -/
def inRegions (rs : List (Nat × Nat)) (i : Nat) : Prop :=
  ∃ r ∈ rs, r.1 ≤ i ∧ i ≤ r.2

/-- PIL's `img.crop((left, top, right, bottom))`: the result is
`(right-left) x (bottom-top)`; samples taken outside the source image are
filled with `clearPx` (PIL pads out-of-bounds crops with zero pixels).  The
mode of the image is preserved. -/
def crop (img : Img) (left top right bottom : Nat) : Img :=
  ⟨right - left, bottom - top, img.rgba, fun x y =>
    if left + x < img.width ∧ top + y < img.height ∧
        x < right - left ∧ y < bottom - top then
      img.pix (left + x) (top + y)
    else clearPx⟩

/-- The padding block of `slice_sprite`: for `padding > 0`, create a new
fully transparent RGBA image `2*padding` larger in each dimension and paste
the frame at `(padding, padding)` (pasting converts the source to RGBA);
for `padding = 0` the frame is returned unchanged. -/
def padFrame (p : Nat) (f : Img) : Img :=
  if 0 < p then
    ⟨f.width + 2 * p, f.height + 2 * p, true, fun x y =>
      if p ≤ x ∧ x < p + f.width ∧ p ≤ y ∧ y < p + f.height then
        (convertRGBA f).pix (x - p) (y - p)
      else clearPx⟩
  else f

/-- The resize block of `slice_sprite`: `frame.resize(resize, LANCZOS)` is an
external PIL operation, passed in as the function `rf`; with `resize = none`
the frame is unchanged. -/
def applyResize (rf : Img → Nat × Nat → Img) (rs : Option (Nat × Nat)) (f : Img) : Img :=
  match rs with
  | some wh => rf f wh
  | none => f

/-- `calculate_dimensions(img, width, height, slices, direction)` of
image_cutter.py: for direction `v` the image dimensions are conceptually
swapped; an explicit width wins (with height defaulting to the full image
height); otherwise a slice count divides the width; with neither, the
`ValueError` is raised. -/
def calculate_dimensions (img : Img) (width height slices : Option Nat)
    (d : Direction) : Except String (Nat × Nat) :=
  let imgW := match d with | .h => img.width | .v => img.height
  let imgH := match d with | .h => img.height | .v => img.width
  match width with
  | some w => Except.ok (w, height.getD imgH)
  | none =>
    match slices with
    | some s => Except.ok (imgW / s, imgH)
    | none => Except.error "Either width or slices must be specified"

/-- Python's `slices or default`: `None` and `0` are both falsy. -/
def orD (s : Option Nat) (dflt : Nat) : Nat :=
  match s with
  | some n => if n = 0 then dflt else n
  | none => dflt

/-- The fixed-grid loop of `slice_sprite` for direction `h`: frames start at
`i * frame_width`; a start at or past the right edge stops the loop; the end
is clamped to the image width; each crop is padded and optionally resized.
The second argument counts the remaining loop iterations. -/
def fixedLoopH (rf : Img → Nat × Nat → Img) (img : Img) (fw fh p : Nat)
    (rs : Option (Nat × Nat)) : Nat → Nat → List Img
  | _, 0 => []
  | i, k + 1 =>
    if img.width ≤ i * fw then []
    else
      let ex := min (i * fw + fw) img.width
      let frame := applyResize rf rs (padFrame p (crop img (i * fw) 0 ex fh))
      frame :: fixedLoopH rf img fw fh p rs (i + 1) k

/-- The fixed-grid loop of `slice_sprite` for direction `v`: as in the
source, `frame_width` is used as the slice height and `frame_height` as the
crop width. -/
def fixedLoopV (rf : Img → Nat × Nat → Img) (img : Img) (fw fh p : Nat)
    (rs : Option (Nat × Nat)) : Nat → Nat → List Img
  | _, 0 => []
  | i, k + 1 =>
    if img.height ≤ i * fw then []
    else
      let ey := min (i * fw + fw) img.height
      let frame := applyResize rf rs (padFrame p (crop img 0 (i * fw) fh ey))
      frame :: fixedLoopV rf img fw fh p rs (i + 1) k

/-- `slice_sprite(img, width, height, slices, direction, auto_detect,
padding, resize)` of image_cutter.py.  `calculate_dimensions` runs first and
its `ValueError` aborts before anything else; the auto-detect branch crops
one frame per detected region (full extent along the perpendicular axis);
the fixed branch runs the grid loop for `slices or (img.width //
frame_width)` iterations.  The external LANCZOS resampler is passed in as
`rf`. -/
def slice_sprite (rf : Img → Nat × Nat → Img) (img : Img)
    (width height slices : Option Nat) (d : Direction) (auto_detect : Bool)
    (padding : Nat) (resize : Option (Nat × Nat)) : Except String (List Img) :=
  match calculate_dimensions img width height slices d with
  | .error e => .error e
  | .ok (fw, fh) =>
    if auto_detect then
      .ok ((detect_transparent_regions img d).map fun re =>
        applyResize rf resize (padFrame padding
          (match d with
           | .h => crop img re.1 0 (re.2 + 1) img.height
           | .v => crop img 0 re.1 img.width (re.2 + 1))))
    else
      match d with
      | .h => .ok (fixedLoopH rf img fw fh padding resize 0
          (orD slices (img.width / fw)))
      | .v => .ok (fixedLoopV rf img fw fh padding resize 0
          (orD slices (img.height / fw)))

/-- The alpha value of a sample as PIL would report it after conversion to
RGBA: the stored alpha for RGBA-mode images, 255 otherwise. -/
def effAlpha (f : Img) (x y : Nat) : Nat :=
  ((convertRGBA f).pix x y).a

/-- Placing two images side by side (used to state the reconstruction
property of fixed-grid slicing). -/
def beside (a b : Img) : Img :=
  ⟨a.width + b.width, max a.height b.height, a.rgba, fun x y =>
    if x < a.width then a.pix x y else b.pix (x - a.width) y⟩

/-- Left-to-right concatenation of a frame list along the horizontal axis. -/
def hconcat : List Img → Img
  | [] => ⟨0, 0, true, fun _ _ => clearPx⟩
  | f :: rest => beside f (hconcat rest)

/-! ### The GIF frame compositor of src/video_extract_frames.py -/

/-- PIL's `MULDIV255` macro: the approximate `a * b / 255` used by
`Image.paste` when blending through a mask. -/
def muldiv255 (a b : Nat) : Nat :=
  let t := a * b + 128
  ((t >>> 8) + t) >>> 8

/-- PIL's `BLEND` macro for an 8-bit mask value `m`: destination weighted by
`255 - m` plus source weighted by `m`. -/
def blendc (m d s : Nat) : Nat :=
  muldiv255 d (255 - m) + muldiv255 s m

/-- `dest.paste(src, (px, py), src)` for RGBA images: inside the pasted
rectangle (clipped to the destination) every channel is blended through the
source's alpha band; outside it the destination is unchanged. -/
def pasteMask (dest src : Img) (px py : Nat) : Img :=
  ⟨dest.width, dest.height, dest.rgba, fun x y =>
    if px ≤ x ∧ x < px + src.width ∧ py ≤ y ∧ y < py + src.height ∧
        x < dest.width ∧ y < dest.height then
      let dp := dest.pix x y
      let sp := src.pix (x - px) (y - py)
      ⟨blendc sp.a dp.r sp.r, blendc sp.a dp.g sp.g,
       blendc sp.a dp.b sp.b, blendc sp.a dp.a sp.a⟩
    else dest.pix x y⟩

/-- `dest.paste(src, (px, py))` without a mask: inside the pasted rectangle
(clipped to the destination) the source sample, converted to RGBA, replaces
the destination sample. -/
def pasteCopy (dest src : Img) (px py : Nat) : Img :=
  ⟨dest.width, dest.height, dest.rgba, fun x y =>
    if px ≤ x ∧ x < px + src.width ∧ py ≤ y ∧ y < py + src.height ∧
        x < dest.width ∧ y < dest.height then
      (convertRGBA src).pix (x - px) (y - py)
    else dest.pix x y⟩

/-- One animation frame as consumed by `extract_frames_from_gif`: the
RGBA delta, its position `(left, top)` taken from the container's tile data,
and the raw disposal-method number (0 unspecified, 1 do-not-dispose,
2 restore-to-background, 3 restore-to-previous). -/
structure AnimFrame where
  delta : Img
  left : Nat
  top : Nat
  disposal : Nat

/-- `Image.new('RGBA', (w, h), (0, 0, 0, 0))`: the fully transparent
canvas. -/
def transparentCanvas (w h : Nat) : Img :=
  ⟨w, h, true, fun _ _ => clearPx⟩

/-- The delta paste of the compositor loop: with `preserve_alpha` the frame
is pasted through its own alpha band, otherwise it is pasted plainly. -/
def pasteDelta (pa : Bool) (b : Img) (f : AnimFrame) : Img :=
  if pa then pasteMask b f.delta f.left f.top
  else pasteCopy b f.delta f.left f.top

/-- One iteration of the loop in `extract_frames_from_gif`: on the first
frame or when the current frame's disposal method is 2 a fresh transparent
canvas is created; the delta is pasted onto a copy of the canvas; the canvas
is replaced by the composite only when the disposal method is 1.  Returns
the emitted frame and the canvas for the next iteration. -/
def gifStep (w h : Nat) (pa : Bool) (i : Nat) (base : Option Img)
    (f : AnimFrame) : Img × Option Img :=
  let base1 : Option Img :=
    if i = 0 ∨ f.disposal = 2 then some (transparentCanvas w h) else base
  match base1 with
  | some b =>
    let current := pasteDelta pa b f
    (current, if f.disposal = 1 then some current else base1)
  | none => (f.delta, none)

/-- The frame loop of `extract_frames_from_gif`, starting at index `i` with
canvas `base`. -/
def composeFrom (w h : Nat) (pa : Bool) : Nat → Option Img → List AnimFrame → List Img
  | _, _, [] => []
  | i, base, f :: rest =>
    let st := gifStep w h pa i base f
    st.1 :: composeFrom w h pa (i + 1) st.2 rest

/-- The compositing core of `extract_frames_from_gif(gif_path, ...)`:
given the container's logical size and its frame records in order, produce
the emitted (saved) frame for every index. -/
def extract_frames_from_gif (w h : Nat) (pa : Bool) (fs : List AnimFrame) : List Img :=
  composeFrom w h pa 0 none fs

/-! ### Concrete inputs used by the counterexamples and witnesses -/

/-- Opaque red. -/
def redPx : RGBA := ⟨255, 0, 0, 255⟩

/-- Opaque blue. -/
def bluePx : RGBA := ⟨0, 0, 255, 255⟩

/-- A trivial stand-in for the external LANCZOS resampler, used where a
concrete resize function is needed (all concrete scenarios pass
`resize = none`, so it is never applied). -/
def rfid : Img → Nat × Nat → Img := fun f _ => f

/-- A 1x1 opaque red RGBA image. -/
def img11 : Img := ⟨1, 1, true, fun _ _ => redPx⟩

/-- A 2x1 opaque red RGBA image. -/
def img21 : Img := ⟨2, 1, true, fun _ _ => redPx⟩

/-- A 4x1 RGBA image whose pixels record their own column. -/
def img4 : Img := ⟨4, 1, true, fun x _ => ⟨x, 0, 0, 255⟩⟩

/-- A 2x3 image in a mode without alpha (RGB); the stored alpha values are 0
and meaningless until conversion. -/
def imgRGB2 : Img := ⟨2, 3, false, fun _ _ => ⟨5, 6, 7, 0⟩⟩

/-- Frame 0 of the C1 scenario: full-canvas opaque red delta, disposal 2
(restore to background). -/
def c1f0 : AnimFrame := ⟨⟨4, 4, true, fun _ _ => redPx⟩, 0, 0, 2⟩

/-- Frame 1 of the C1 scenario: 2x2 opaque blue delta at offset (1, 1),
disposal 0 (unspecified). -/
def c1f1 : AnimFrame := ⟨⟨2, 2, true, fun _ _ => bluePx⟩, 1, 1, 0⟩

/-- The compositor's output on the C1 scenario. -/
def c1out : List Img := extract_frames_from_gif 4 4 true [c1f0, c1f1]

/-- A full-canvas opaque red delta with disposal 0 (unspecified) on a 1x1
canvas. -/
def c2f0 : AnimFrame := ⟨⟨1, 1, true, fun _ _ => redPx⟩, 0, 0, 0⟩

/-- A fully transparent 1x1 delta with disposal 0: pasting it through its
alpha band leaves the canvas unchanged, so the emitted frame exposes the
canvas the compositor kept as background. -/
def c2f1 : AnimFrame := ⟨⟨1, 1, true, fun _ _ => clearPx⟩, 0, 0, 0⟩

/-- The compositor's output on the C2 scenario. -/
def c2out : List Img := extract_frames_from_gif 1 1 true [c2f0, c2f1]

/-- A frame with disposal 1 (do not dispose), used to instantiate the
canvas-persistence theorem. -/
def af1 : AnimFrame := ⟨⟨1, 1, true, fun _ _ => redPx⟩, 0, 0, 1⟩

/-- A 2x2 red delta at offset (0, 0): on a 1x1 canvas its bounding box
extends past the canvas on both axes. -/
def c3f : AnimFrame := ⟨⟨2, 2, true, fun _ _ => redPx⟩, 0, 0, 0⟩

/-- The fixed-grid output of slicing the 2x1 image `img21` with
`slices = 3`: the computed frame width is `2 // 3 = 0`. -/
def c6fs : List Img := fixedLoopH rfid img21 0 1 0 none 0 3

/-- The auto-detect output of slicing `img11` with padding 2. -/
def c8fs : List Img :=
  (detect_transparent_regions img11 Direction.h).map fun re =>
    applyResize rfid none (padFrame 2 (crop img11 re.1 0 (re.2 + 1) img11.height))

/-- The auto-detect output of slicing `img11` with padding 0. -/
def c10fs : List Img :=
  (detect_transparent_regions img11 Direction.h).map fun re =>
    applyResize rfid none (padFrame 0 (crop img11 re.1 0 (re.2 + 1) img11.height))

/-! ### Properties of the region scanner -/

lemma groupGo_nil (start prev : Nat) : groupGo start prev [] = [(start, prev)] := rfl

lemma groupGo_cons (start prev col : Nat) (rest : List Nat) :
    groupGo start prev (col :: rest) =
      if prev + 1 < col then (start, prev) :: groupGo col col rest
      else groupGo start col rest := rfl

lemma inRegions_nil (i : Nat) : inRegions [] i ↔ False := by
  simp [inRegions]

lemma inRegions_cons (r : Nat × Nat) (rs : List (Nat × Nat)) (i : Nat) :
    inRegions (r :: rs) i ↔ (r.1 ≤ i ∧ i ≤ r.2) ∨ inRegions rs i := by
  simp [inRegions, List.mem_cons, or_and_right, exists_or]

lemma groupGo_inRegions (i : Nat) (l : List Nat) :
    ∀ start prev : Nat, start ≤ prev → List.Chain (· < ·) prev l →
      (inRegions (groupGo start prev l) i ↔ (start ≤ i ∧ i ≤ prev) ∨ i ∈ l) := by
  induction l with
  | nil =>
    intro start prev hsp _
    rw [groupGo_nil, inRegions_cons, inRegions_nil]
    simp
  | cons col rest ih =>
    intro start prev hsp hch
    rw [List.chain_cons] at hch
    obtain ⟨hlt, hch2⟩ := hch
    rw [groupGo_cons]
    by_cases hgap : prev + 1 < col
    · rw [if_pos hgap, inRegions_cons, ih col col le_rfl hch2, List.mem_cons]
      constructor
      · rintro (h | h | h)
        · exact Or.inl h
        · exact Or.inr (Or.inl (by omega))
        · exact Or.inr (Or.inr h)
      · rintro (h | h | h)
        · exact Or.inl h
        · exact Or.inr (Or.inl (by omega))
        · exact Or.inr (Or.inr h)
    · have hcol : col = prev + 1 := by omega
      rw [if_neg hgap, ih start col (by omega) hch2, List.mem_cons]
      constructor
      · rintro (h | h)
        · rcases Nat.lt_or_ge i col with h2 | h2
          · exact Or.inl ⟨h.1, by omega⟩
          · exact Or.inr (Or.inl (by omega))
        · exact Or.inr (Or.inr h)
      · rintro (h | h | h)
        · exact Or.inl ⟨h.1, by omega⟩
        · exact Or.inl (by omega)
        · exact Or.inr h

lemma groupRegions_inRegions (l : List Nat) (hl : l.Chain' (· < ·)) (i : Nat) :
    inRegions (groupRegions l) i ↔ i ∈ l := by
  match l with
  | [] => simp [groupRegions, inRegions]
  | c :: rest =>
    have hch : List.Chain (· < ·) c rest := hl
    rw [show groupRegions (c :: rest) = groupGo c c rest from rfl,
      groupGo_inRegions i rest c c le_rfl hch, List.mem_cons]
    constructor
    · rintro (h | h)
      · exact Or.inl (by omega)
      · exact Or.inr h
    · rintro (h | h)
      · exact Or.inl (by omega)
      · exact Or.inr h

lemma cols_chain (img : Img) (d : Direction) :
    (nonTransparentCols img d).Chain' (· < ·) := by
  rw [List.chain'_iff_pairwise]
  exact (List.pairwise_lt_range _).sublist (List.filter_sublist _)

lemma mem_nonTransparentCols (img : Img) (d : Direction) (i : Nat) :
    i ∈ nonTransparentCols img d ↔
      i < axisLen img d ∧ nonTransparentLine img d i = true := by
  simp [nonTransparentCols, List.mem_filter, List.mem_range]

lemma line_iff (img : Img) (d : Direction) (i : Nat) :
    nonTransparentLine img d i = true ↔
      ∃ j, j < perpLen img d ∧ 0 < (samplePix img d i j).a := by
  simp [nonTransparentLine, List.any_eq_true, List.mem_range]

/-- Claim C4 (confirmed): for every pixel buffer and both scan directions,
an index lies in the union of the closed intervals of the regions returned
by `detect_transparent_regions` exactly when it is a valid index along the
scan axis whose perpendicular line contains a sample with alpha > 0 (after
RGBA conversion, as the scanner performs it). -/
theorem detect_regions_roundtrip (img : Img) (d : Direction) (i : Nat) :
    inRegions (detect_transparent_regions img d) i ↔
      i < axisLen img d ∧ ∃ j, j < perpLen img d ∧ 0 < (samplePix img d i j).a := by
  rw [show detect_transparent_regions img d = groupRegions (nonTransparentCols img d) from rfl,
    groupRegions_inRegions _ (cols_chain img d), mem_nonTransparentCols, line_iff]

/-- Witness for C4: on the concrete 1x1 opaque image the round-trip
produces a region containing index 0. -/
theorem detect_regions_roundtrip_witness :
    inRegions (detect_transparent_regions img11 Direction.h) 0 :=
  (detect_regions_roundtrip img11 Direction.h 0).mpr
    ⟨by decide, 0, by decide, by decide⟩

lemma groupGo_range' (k : Nat) :
    ∀ start prev : Nat, groupGo start prev (List.range' (prev + 1) k) = [(start, prev + k)] := by
  induction k with
  | zero => intro start prev; simp [groupGo_nil]
  | succ n ih =>
    intro start prev
    rw [List.range'_succ, groupGo_cons, if_neg (by omega)]
    rw [ih start (prev + 1)]
    have heq : prev + 1 + n = prev + (n + 1) := by omega
    rw [heq]

lemma groupRegions_range (n : Nat) (hn : 1 ≤ n) :
    groupRegions (List.range n) = [(0, n - 1)] := by
  obtain ⟨m, rfl⟩ : ∃ m, n = m + 1 := ⟨n - 1, by omega⟩
  rw [List.range_eq_range', List.range'_succ,
    show groupRegions (0 :: List.range' (0 + 1) m) = groupGo 0 0 (List.range' (0 + 1) m) from rfl,
    groupGo_range' m 0 0]
  simp

lemma convertRGBA_alpha (img : Img) (hmode : img.rgba = false) (x y : Nat) :
    ((convertRGBA img).pix x y).a = 255 := by
  simp [convertRGBA, hmode]

/-- Claim C9 (confirmed): a buffer in a mode without alpha is converted to
RGBA with alpha 255 everywhere, so for nonempty dimensions the scanner
returns exactly one region spanning the whole scan axis, in both
directions. -/
theorem convert_rgb_detect (img : Img) (hmode : img.rgba = false)
    (hw : 1 ≤ img.width) (hh : 1 ≤ img.height) :
    (∀ x y, ((convertRGBA img).pix x y).a = 255) ∧
    detect_transparent_regions img .h = [(0, img.width - 1)] ∧
    detect_transparent_regions img .v = [(0, img.height - 1)] := by
  have halpha : ∀ x y, ((convertRGBA img).pix x y).a = 255 :=
    fun x y => convertRGBA_alpha img hmode x y
  have hline : ∀ d i, nonTransparentLine img d i = true := by
    intro d i
    rw [line_iff]
    refine ⟨0, ?_, ?_⟩
    · cases d <;> simp [perpLen] <;> omega
    · cases d <;> simp [samplePix, halpha]
  have hcols : ∀ d, nonTransparentCols img d = List.range (axisLen img d) := by
    intro d
    exact List.filter_eq_self.mpr fun a _ => hline d a
  refine ⟨halpha, ?_, ?_⟩
  · rw [show detect_transparent_regions img .h =
        groupRegions (nonTransparentCols img .h) from rfl, hcols .h]
    exact groupRegions_range _ hw
  · rw [show detect_transparent_regions img .v =
        groupRegions (nonTransparentCols img .v) from rfl, hcols .v]
    exact groupRegions_range _ hh

/-- Witness for C9: the alpha-less 2x3 image (stored alpha 0) scans as one
full-width region. -/
theorem convert_rgb_detect_witness :
    detect_transparent_regions imgRGB2 Direction.h = [(0, imgRGB2.width - 1)] :=
  (convert_rgb_detect imgRGB2 rfl (by decide) (by decide)).2.1

/-! ### Auto-detected frames are never fully transparent -/

lemma groupGo_start_mem (l : List Nat) :
    ∀ start prev : Nat, start ≤ prev → List.Chain (· < ·) prev l →
      ∀ s e : Nat, (s, e) ∈ groupGo start prev l → (s = start ∨ s ∈ l) ∧ s ≤ e := by
  induction l with
  | nil =>
    intro start prev hsp _ s e hmem
    rw [groupGo_nil, List.mem_singleton] at hmem
    exact ⟨Or.inl (by injection hmem), by injection hmem with ha hb; omega⟩
  | cons col rest ih =>
    intro start prev hsp hch s e hmem
    rw [List.chain_cons] at hch
    obtain ⟨hlt, hch2⟩ := hch
    rw [groupGo_cons] at hmem
    by_cases hgap : prev + 1 < col
    · rw [if_pos hgap, List.mem_cons] at hmem
      rcases hmem with h | h
      · refine ⟨Or.inl (by injection h), by injection h with ha hb; omega⟩
      · obtain ⟨hs, hse⟩ := ih col col le_rfl hch2 s e h
        refine ⟨Or.inr ?_, hse⟩
        rw [List.mem_cons]
        rcases hs with h2 | h2
        · exact Or.inl h2
        · exact Or.inr h2
    · rw [if_neg hgap] at hmem
      obtain ⟨hs, hse⟩ := ih start col (by omega) hch2 s e hmem
      rcases hs with h2 | h2
      · exact ⟨Or.inl h2, hse⟩
      · exact ⟨Or.inr (List.mem_cons_of_mem _ h2), hse⟩

lemma regions_start_mem (img : Img) (d : Direction) (s e : Nat)
    (hmem : (s, e) ∈ detect_transparent_regions img d) :
    s ∈ nonTransparentCols img d ∧ s ≤ e := by
  have hch := cols_chain img d
  rw [show detect_transparent_regions img d =
      groupRegions (nonTransparentCols img d) from rfl] at hmem
  match hl : nonTransparentCols img d with
  | [] => rw [hl] at hmem; simp [groupRegions] at hmem
  | c :: rest =>
    rw [hl] at hmem hch
    have hch2 : List.Chain (· < ·) c rest := hch
    obtain ⟨hs, hse⟩ := groupGo_start_mem rest c c le_rfl hch2 s e hmem
    refine ⟨?_, hse⟩
    rw [List.mem_cons]
    rcases hs with h | h
    · exact Or.inl h
    · exact Or.inr h

lemma crop_pix (img : Img) (l t r b x y : Nat)
    (h1 : l + x < img.width) (h2 : t + y < img.height)
    (h3 : x < r - l) (h4 : y < b - t) :
    (crop img l t r b).pix x y = img.pix (l + x) (t + y) := by
  simp only [crop]
  rw [if_pos ⟨h1, h2, h3, h4⟩]

lemma convertRGBA_of_rgba (img : Img) (h : img.rgba = true) :
    convertRGBA img = img := by
  simp [convertRGBA, h]

lemma effAlpha_crop_h (img : Img) (s0 e0 j0 : Nat)
    (hs : s0 < img.width) (hj : j0 < img.height) (hse : s0 ≤ e0) :
    effAlpha (crop img s0 0 (e0 + 1) img.height) 0 j0 = (samplePix img .h s0 j0).a := by
  unfold effAlpha samplePix
  cases himg : img.rgba with
  | true =>
    have hc : (crop img s0 0 (e0 + 1) img.height).rgba = true := himg
    rw [convertRGBA_of_rgba _ hc, convertRGBA_of_rgba _ himg,
      crop_pix _ _ _ _ _ _ _ (by omega) (by omega) (by omega) (by omega)]
    simp
  | false =>
    have hc : (crop img s0 0 (e0 + 1) img.height).rgba = false := himg
    rw [convertRGBA_alpha _ hc, convertRGBA_alpha _ himg]

lemma effAlpha_crop_v (img : Img) (s0 e0 j0 : Nat)
    (hs : s0 < img.height) (hj : j0 < img.width) (hse : s0 ≤ e0) :
    effAlpha (crop img 0 s0 img.width (e0 + 1)) j0 0 = (samplePix img .v s0 j0).a := by
  unfold effAlpha samplePix
  cases himg : img.rgba with
  | true =>
    have hc : (crop img 0 s0 img.width (e0 + 1)).rgba = true := himg
    rw [convertRGBA_of_rgba _ hc, convertRGBA_of_rgba _ himg,
      crop_pix _ _ _ _ _ _ _ (by omega) (by omega) (by omega) (by omega)]
    simp
  | false =>
    have hc : (crop img 0 s0 img.width (e0 + 1)).rgba = false := himg
    rw [convertRGBA_alpha _ hc, convertRGBA_alpha _ himg]

lemma padFrame_zero (f : Img) : padFrame 0 f = f := by
  simp [padFrame]

lemma getD_mem_of_lt {α : Type} (l : List α) (j : Nat) (dflt : α)
    (h : j < l.length) : l.getD j dflt ∈ l := by
  induction l generalizing j with
  | nil => simp at h
  | cons a t ih =>
    cases j with
    | zero => simp [List.getD]
    | succ n =>
      rw [List.getD_cons_succ]
      exact List.mem_cons_of_mem _ (ih n (by simpa using h))

lemma getD_map_eq {α β : Type} (f : α → β) (l : List α) (j : Nat) (db : β)
    (da : α) (h : j < l.length) : (l.map f).getD j db = f (l.getD j da) := by
  induction l generalizing j with
  | nil => simp at h
  | cons a t ih =>
    cases j with
    | zero => simp [List.getD]
    | succ n =>
      simp only [List.map_cons, List.getD_cons_succ]
      exact ih n (by simpa using h)

/-- Claim C10 (confirmed): in auto-detect mode with padding 0 and no
resize, every frame the slicer returns contains a sample whose effective
alpha is positive: the region start's perpendicular line contributes an
opaque sample inside the crop. -/
theorem autodetect_frames_nonempty (rf : Img → Nat × Nat → Img) (img : Img)
    (w h s : Option Nat) (d : Direction) (fs : List Img)
    (hok : slice_sprite rf img w h s d true 0 none = .ok fs) :
    ∀ j, j < fs.length →
      ∃ x y, x < (fs.getD j default).width ∧ y < (fs.getD j default).height ∧
        0 < effAlpha (fs.getD j default) x y := by
  unfold slice_sprite at hok
  rcases hcd : calculate_dimensions img w h s d with e | ⟨fw, fh⟩
  · rw [hcd] at hok
    exact absurd hok (by simp)
  · rw [hcd] at hok
    simp only [if_true, Except.ok.injEq] at hok
    subst hok
    intro j hj
    rw [List.length_map] at hj
    rw [getD_map_eq _ _ _ _ (0, 0) hj]
    have hmem : (detect_transparent_regions img d).getD j (0, 0) ∈
        detect_transparent_regions img d := getD_mem_of_lt _ _ _ hj
    rcases hre : (detect_transparent_regions img d).getD j (0, 0) with ⟨s0, e0⟩
    rw [hre] at hmem
    obtain ⟨hcols, hse⟩ := regions_start_mem img d s0 e0 hmem
    rw [mem_nonTransparentCols, line_iff] at hcols
    obtain ⟨haxis, j0, hj0, halpha⟩ := hcols
    cases d with
    | h =>
      refine ⟨0, j0, ?_, ?_, ?_⟩
      · simp only [applyResize, padFrame_zero, crop]
        simp [axisLen] at haxis
        omega
      · simp only [applyResize, padFrame_zero, crop]
        simp [perpLen] at hj0
        omega
      · simp only [applyResize, padFrame_zero]
        rw [effAlpha_crop_h img s0 e0 j0 (by simpa [axisLen] using haxis)
          (by simpa [perpLen] using hj0) hse]
        exact halpha
    | v =>
      refine ⟨j0, 0, ?_, ?_, ?_⟩
      · simp only [applyResize, padFrame_zero, crop]
        simp [perpLen] at hj0
        omega
      · simp only [applyResize, padFrame_zero, crop]
        simp [axisLen] at haxis
        omega
      · simp only [applyResize, padFrame_zero]
        rw [effAlpha_crop_v img s0 e0 j0 (by simpa [axisLen] using haxis)
          (by simpa [perpLen] using hj0) hse]
        exact halpha

/-- Witness for C10: the single auto-detected frame of the 1x1 opaque image
contains an opaque sample. -/
theorem autodetect_frames_nonempty_witness :
    ∃ x y, x < (c10fs.getD 0 default).width ∧ y < (c10fs.getD 0 default).height ∧
      0 < effAlpha (c10fs.getD 0 default) x y :=
  autodetect_frames_nonempty rfid img11 (some 1) none none Direction.h c10fs rfl
    0 (by decide)

/-! ### Fixed-grid slicing -/

lemma fixedLoopH_zero (rf : Img → Nat × Nat → Img) (img : Img) (fw fh p : Nat)
    (rs : Option (Nat × Nat)) (i : Nat) :
    fixedLoopH rf img fw fh p rs i 0 = [] := rfl

lemma fixedLoopH_succ (rf : Img → Nat × Nat → Img) (img : Img) (fw fh p : Nat)
    (rs : Option (Nat × Nat)) (i k : Nat) :
    fixedLoopH rf img fw fh p rs i (k + 1) =
      if img.width ≤ i * fw then []
      else
        applyResize rf rs (padFrame p
            (crop img (i * fw) 0 (min (i * fw + fw) img.width) fh)) ::
          fixedLoopH rf img fw fh p rs (i + 1) k := rfl

lemma fixedLoopV_zero (rf : Img → Nat × Nat → Img) (img : Img) (fw fh p : Nat)
    (rs : Option (Nat × Nat)) (i : Nat) :
    fixedLoopV rf img fw fh p rs i 0 = [] := rfl

lemma fixedLoopV_succ (rf : Img → Nat × Nat → Img) (img : Img) (fw fh p : Nat)
    (rs : Option (Nat × Nat)) (i k : Nat) :
    fixedLoopV rf img fw fh p rs i (k + 1) =
      if img.height ≤ i * fw then []
      else
        applyResize rf rs (padFrame p
            (crop img 0 (i * fw) fh (min (i * fw + fw) img.height))) ::
          fixedLoopV rf img fw fh p rs (i + 1) k := rfl

lemma fixedLoopH_reconstruct (rf : Img → Nat × Nat → Img) (img : Img) (w : Nat)
    (hw : 0 < w) :
    ∀ k i : Nat, (i + k) * w ≤ img.width →
      (fixedLoopH rf img w img.height 0 none i k).length = k ∧
      (hconcat (fixedLoopH rf img w img.height 0 none i k)).width = k * w ∧
      (0 < k → (hconcat (fixedLoopH rf img w img.height 0 none i k)).height = img.height) ∧
      ∀ x y, x < k * w → y < img.height →
        (hconcat (fixedLoopH rf img w img.height 0 none i k)).pix x y =
          img.pix (i * w + x) y := by
  intro k
  induction k with
  | zero =>
    intro i hik
    refine ⟨rfl, by simp [fixedLoopH_zero, hconcat], by omega, ?_⟩
    intro x y hx hy
    omega
  | succ n ih =>
    intro i hik
    have hexp : (i + (n + 1)) * w = i * w + n * w + w := by ring
    have hexp2 : (i + 1 + n) * w = i * w + n * w + w := by ring
    have hexp3 : (n + 1) * w = n * w + w := by ring
    have hexp4 : (i + 1) * w = i * w + w := by ring
    have hsx : i * w < img.width := by omega
    have hmin : min (i * w + w) img.width = i * w + w := by omega
    obtain ⟨ihlen, ihw, ihh, ihpix⟩ := ih (i + 1) (by omega)
    rw [fixedLoopH_succ, if_neg (by omega), hmin]
    simp only [applyResize, padFrame_zero]
    have hcw : (crop img (i * w) 0 (i * w + w) img.height).width = w := by
      simp [crop]
    have hch : (crop img (i * w) 0 (i * w + w) img.height).height = img.height := by
      simp [crop]
    refine ⟨?_, ?_, ?_, ?_⟩
    · simp [ihlen]
    · show (beside _ _).width = (n + 1) * w
      simp only [beside, hcw, ihw]
      ring
    · intro _
      show (beside _ _).height = img.height
      simp only [beside, hch]
      rcases Nat.eq_zero_or_pos n with hn | hn
      · subst hn
        rw [fixedLoopH_zero]
        show max img.height (0 : Nat) = img.height
        omega
      · rw [ihh hn]
        omega
    · intro x y hx hy
      show (beside _ _).pix x y = img.pix (i * w + x) y
      simp only [beside, hcw]
      by_cases hxw : x < w
      · rw [if_pos hxw, crop_pix _ _ _ _ _ _ _ (by omega) (by omega) (by omega) (by omega)]
        simp
      · rw [if_neg hxw, ihpix (x - w) y (by omega) hy,
          show (i + 1) * w + (x - w) = i * w + x from by omega]

/-- Claim C5 (confirmed): slicing a buffer of width divisible by `w` with
auto-detect off, no slice count, padding 0, no resize, horizontal axis, and
frame height omitted yields exactly `width / w` frames whose left-to-right
concatenation reproduces the buffer's pixels exactly. -/
theorem fixedgrid_reconstruct (rf : Img → Nat × Nat → Img) (img : Img) (w : Nat)
    (hw : 0 < w) (hdvd : w ∣ img.width) :
    ∃ fs, slice_sprite rf img (some w) none none .h false 0 none = .ok fs ∧
      fs.length = img.width / w ∧
      (hconcat fs).width = img.width ∧
      (0 < img.width → (hconcat fs).height = img.height) ∧
      ∀ x y, x < img.width → y < img.height → (hconcat fs).pix x y = img.pix x y := by
  have hmul : img.width / w * w = img.width := Nat.div_mul_cancel hdvd
  have hbound : (0 + img.width / w) * w ≤ img.width := by
    rw [Nat.zero_add, hmul]
  obtain ⟨hlen, hwid, hhei, hpix⟩ := fixedLoopH_reconstruct rf img w hw (img.width / w) 0 hbound
  refine ⟨fixedLoopH rf img w img.height 0 none 0 (img.width / w), rfl, hlen, ?_, ?_, ?_⟩
  · rw [hwid, hmul]
  · intro hpos
    refine hhei ?_
    exact Nat.div_pos (Nat.le_of_dvd hpos hdvd) hw
  · intro x y hx hy
    rw [hpix x y (by rw [hmul]; exact hx) hy, Nat.zero_mul, Nat.zero_add]

/-- Witness for C5: the 4x1 image sliced into tiles of width 2. -/
theorem fixedgrid_reconstruct_witness :
    ∃ fs, slice_sprite rfid img4 (some 2) none none Direction.h false 0 none = .ok fs ∧
      fs.length = img4.width / 2 ∧
      (hconcat fs).width = img4.width ∧
      (0 < img4.width → (hconcat fs).height = img4.height) ∧
      ∀ x y, x < img4.width → y < img4.height → (hconcat fs).pix x y = img4.pix x y :=
  fixedgrid_reconstruct rfid img4 2 (by decide) (by decide)

/-- Claim C7 (confirmed): with neither a frame width nor a slice count the
slicer fails with the configuration error of `calculate_dimensions`, for
every buffer, direction, mode, padding and resize setting alike, so the
result never depends on any pixel of the buffer. -/
theorem missing_spec_error (rf : Img → Nat × Nat → Img) (img : Img) (d : Direction)
    (ad : Bool) (p : Nat) (rs : Option (Nat × Nat)) :
    slice_sprite rf img none none none d ad p rs =
      .error "Either width or slices must be specified" := rfl

/-! ### Padding and clipping -/

lemma padFrame_spec (p : Nat) (c : Img) :
    (padFrame p c).width = c.width + 2 * p ∧
    (padFrame p c).height = c.height + 2 * p ∧
    ∀ x y, x < c.width + 2 * p → y < c.height + 2 * p →
      (x < p ∨ p + c.width ≤ x ∨ y < p ∨ p + c.height ≤ y) →
      (padFrame p c).pix x y = clearPx := by
  by_cases hp : 0 < p
  · refine ⟨by simp [padFrame, hp], by simp [padFrame, hp], ?_⟩
    intro x y hx hy hborder
    simp only [padFrame, if_pos hp]
    rw [if_neg (by omega)]
  · have hp0 : p = 0 := by omega
    subst hp0
    refine ⟨by simp [padFrame], by simp [padFrame], ?_⟩
    intro x y hx hy hborder
    omega

lemma fixedLoopH_shape (rf : Img → Nat × Nat → Img) (img : Img) (fw fh p : Nat) :
    ∀ k i : Nat, ∀ f ∈ fixedLoopH rf img fw fh p none i k, ∃ c, f = padFrame p c := by
  intro k
  induction k with
  | zero => intro i f hf; rw [fixedLoopH_zero] at hf; simp at hf
  | succ n ih =>
    intro i f hf
    rw [fixedLoopH_succ] at hf
    by_cases hb : img.width ≤ i * fw
    · rw [if_pos hb] at hf; simp at hf
    · rw [if_neg hb, List.mem_cons] at hf
      rcases hf with hf | hf
      · exact ⟨_, hf⟩
      · exact ih (i + 1) f hf

lemma fixedLoopV_shape (rf : Img → Nat × Nat → Img) (img : Img) (fw fh p : Nat) :
    ∀ k i : Nat, ∀ f ∈ fixedLoopV rf img fw fh p none i k, ∃ c, f = padFrame p c := by
  intro k
  induction k with
  | zero => intro i f hf; rw [fixedLoopV_zero] at hf; simp at hf
  | succ n ih =>
    intro i f hf
    rw [fixedLoopV_succ] at hf
    by_cases hb : img.height ≤ i * fw
    · rw [if_pos hb] at hf; simp at hf
    · rw [if_neg hb, List.mem_cons] at hf
      rcases hf with hf | hf
      · exact ⟨_, hf⟩
      · exact ih (i + 1) f hf

lemma slice_shape (rf : Img → Nat × Nat → Img) (img : Img)
    (w h s : Option Nat) (d : Direction) (ad : Bool) (p : Nat) (fs : List Img)
    (hok : slice_sprite rf img w h s d ad p none = .ok fs) :
    ∀ f ∈ fs, ∃ c, f = padFrame p c := by
  unfold slice_sprite at hok
  split at hok
  · exact absurd hok (by simp)
  · rename_i fw fh heq
    by_cases had : ad = true
    · rw [if_pos had] at hok
      obtain rfl : _ = fs := by injection hok
      intro f hf
      rw [List.mem_map] at hf
      obtain ⟨re, _, hre⟩ := hf
      exact ⟨_, hre.symm⟩
    · rw [if_neg had] at hok
      cases d with
      | h =>
        obtain rfl : _ = fs := by injection hok
        exact fun f hf => fixedLoopH_shape rf img fw fh p _ 0 f hf
      | v =>
        obtain rfl : _ = fs := by injection hok
        exact fun f hf => fixedLoopV_shape rf img fw fh p _ 0 f hf

/-- Claim C8 (confirmed): with no resize target, every frame the slicer
emits is the padding of some cropped frame: its width and height exceed the
cropped frame's by exactly `2 * padding`, and every sample in the added
border is fully transparent. -/
theorem padding_adds_border (rf : Img → Nat × Nat → Img) (img : Img)
    (w h s : Option Nat) (d : Direction) (ad : Bool) (p : Nat) (fs : List Img)
    (hok : slice_sprite rf img w h s d ad p none = .ok fs) :
    ∀ j, j < fs.length → ∃ c,
      fs.getD j default = padFrame p c ∧
      (fs.getD j default).width = c.width + 2 * p ∧
      (fs.getD j default).height = c.height + 2 * p ∧
      ∀ x y, x < c.width + 2 * p → y < c.height + 2 * p →
        (x < p ∨ p + c.width ≤ x ∨ y < p ∨ p + c.height ≤ y) →
        (fs.getD j default).pix x y = clearPx := by
  intro j hj
  obtain ⟨c, hc⟩ := slice_shape rf img w h s d ad p fs hok _ (getD_mem_of_lt fs j default hj)
  obtain ⟨h1, h2, h3⟩ := padFrame_spec p c
  exact ⟨c, hc, by rw [hc, h1], by rw [hc, h2],
    fun x y hx hy hb => by rw [hc]; exact h3 x y hx hy hb⟩

/-- Witness for C8: the single frame of `img11` sliced with padding 2. -/
theorem padding_adds_border_witness :
    ∃ c, c8fs.getD 0 default = padFrame 2 c ∧
      (c8fs.getD 0 default).width = c.width + 2 * 2 ∧
      (c8fs.getD 0 default).height = c.height + 2 * 2 ∧
      ∀ x y, x < c.width + 2 * 2 → y < c.height + 2 * 2 →
        (x < 2 ∨ 2 + c.width ≤ x ∨ y < 2 ∨ 2 + c.height ≤ y) →
        (c8fs.getD 0 default).pix x y = clearPx :=
  padding_adds_border rfid img11 (some 1) none none Direction.h true 2 c8fs rfl
    0 (by decide)

lemma fixedLoopH_clip (rf : Img → Nat × Nat → Img) (img : Img) (fw fh : Nat) :
    ∀ k i : Nat, ∀ f ∈ fixedLoopH rf img fw fh 0 none i k,
      f.width ≤ img.width ∧ f.height = fh := by
  intro k
  induction k with
  | zero => intro i f hf; rw [fixedLoopH_zero] at hf; simp at hf
  | succ n ih =>
    intro i f hf
    rw [fixedLoopH_succ] at hf
    by_cases hb : img.width ≤ i * fw
    · rw [if_pos hb] at hf; simp at hf
    · rw [if_neg hb, List.mem_cons] at hf
      simp only [applyResize, padFrame_zero] at hf
      rcases hf with hf | hf
      · subst hf
        constructor
        · show min (i * fw + fw) img.width - i * fw ≤ img.width
          omega
        · show fh - 0 = fh
          omega
      · exact ih (i + 1) f hf

lemma fixedLoopV_clip (rf : Img → Nat × Nat → Img) (img : Img) (fw fh : Nat) :
    ∀ k i : Nat, ∀ f ∈ fixedLoopV rf img fw fh 0 none i k,
      f.height ≤ img.height ∧ f.width = fh := by
  intro k
  induction k with
  | zero => intro i f hf; rw [fixedLoopV_zero] at hf; simp at hf
  | succ n ih =>
    intro i f hf
    rw [fixedLoopV_succ] at hf
    by_cases hb : img.height ≤ i * fw
    · rw [if_pos hb] at hf; simp at hf
    · rw [if_neg hb, List.mem_cons] at hf
      simp only [applyResize, padFrame_zero] at hf
      rcases hf with hf | hf
      · subst hf
        constructor
        · show min (i * fw + fw) img.height - i * fw ≤ img.height
          omega
        · show fh - 0 = fh
          omega
      · exact ih (i + 1) f hf

/-- Claim C6 counterexample: slicing the 2x1 image with `slices = 3` in
fixed-grid mode computes frame width `2 // 3 = 0` and emits three frames of
zero area, contradicting the claim that zero-area tiles are silently
dropped. -/
theorem c6_zero_area_emitted :
    ∃ fs, slice_sprite rfid img21 none none (some 3) Direction.h false 0 none = .ok fs ∧
      fs.length = 3 ∧
      (fs.getD 0 default).width * (fs.getD 0 default).height = 0 :=
  ⟨c6fs, rfl, by decide, by decide⟩

/-- Claim C6 (amended part): in fixed-grid mode with padding 0 and no
resize, every emitted frame is clipped to the buffer boundary along the
slicing axis (its extent never exceeds the buffer's), and slicing never
fails; zero-area tiles, however, are emitted rather than dropped. -/
theorem fixedgrid_clips (rf : Img → Nat × Nat → Img) (img : Img)
    (w h s : Option Nat) (d : Direction) (fs : List Img)
    (hok : slice_sprite rf img w h s d false 0 none = .ok fs) :
    ∀ j, j < fs.length →
      (d = .h → (fs.getD j default).width ≤ img.width) ∧
      (d = .v → (fs.getD j default).height ≤ img.height) := by
  intro j hj
  have hmem := getD_mem_of_lt fs j default hj
  unfold slice_sprite at hok
  split at hok
  · exact absurd hok (by simp)
  · rename_i fw fh heq
    rw [if_neg (by simp)] at hok
    cases d with
    | h =>
      obtain rfl : _ = fs := by injection hok
      refine ⟨fun _ => ?_, fun hd => nomatch hd⟩
      exact (fixedLoopH_clip rf img fw fh _ 0 _ hmem).1
    | v =>
      obtain rfl : _ = fs := by injection hok
      refine ⟨fun hd => (nomatch hd), fun _ => ?_⟩
      exact (fixedLoopV_clip rf img fw fh _ 0 _ hmem).1

/-- Witness for the amended C6: the first frame of the `slices = 3` run on
the 2x1 image stays within the buffer width. -/
theorem fixedgrid_clips_witness :
    (c6fs.getD 0 default).width ≤ img21.width :=
  (fixedgrid_clips rfid img21 none none (some 3) Direction.h c6fs rfl
    0 (by decide)).1 rfl

/-! ### The GIF compositor -/

lemma gifStep_reset (w h : Nat) (pa : Bool) (i : Nat) (base : Option Img)
    (f : AnimFrame) (hc : i = 0 ∨ f.disposal = 2) :
    gifStep w h pa i base f =
      (pasteDelta pa (transparentCanvas w h) f,
       if f.disposal = 1 then some (pasteDelta pa (transparentCanvas w h) f)
       else some (transparentCanvas w h)) := by
  unfold gifStep
  rw [if_pos hc]

lemma gifStep_keep (w h : Nat) (pa : Bool) (i : Nat) (b : Img)
    (f : AnimFrame) (hc : ¬(i = 0 ∨ f.disposal = 2)) :
    gifStep w h pa i (some b) f =
      (pasteDelta pa b f,
       if f.disposal = 1 then some (pasteDelta pa b f) else some b) := by
  unfold gifStep
  rw [if_neg hc]

/-- Claim C2 counterexample: both frames of the C2 scenario carry disposal
0 (Unspecified) and frame 1's delta is fully transparent, so by the claim
frame 1's output should equal frame 0's; the code instead composites frame
1 onto the untouched transparent canvas, because only disposal 1 persists
the composite. -/
theorem c2_unspecified_not_persisted :
    ¬ ((c2out.getD 1 default).pix 0 0 = (c2out.getD 0 default).pix 0 0) := by
  decide

/-- Claim C2 (amended): after processing a frame the canvas holds that
frame's composited output only when the frame's disposal method is
DoNotDispose (1); with Unspecified (0) on a non-first frame the canvas is
exactly what it was before the frame, so the next frame's background omits
this frame's delta. -/
theorem disposal_persistence (w h : Nat) (pa : Bool) (i : Nat) (b : Img)
    (f : AnimFrame) :
    (f.disposal = 1 →
      (gifStep w h pa i (some b) f).2 = some (gifStep w h pa i (some b) f).1) ∧
    (f.disposal = 0 → 0 < i → (gifStep w h pa i (some b) f).2 = some b) := by
  constructor
  · intro h1
    by_cases hc : i = 0 ∨ f.disposal = 2
    · rw [gifStep_reset w h pa i (some b) f hc, if_pos h1]
    · rw [gifStep_keep w h pa i b f hc, if_pos h1]
  · intro h0 hi
    have hc : ¬(i = 0 ∨ f.disposal = 2) := by omega
    rw [gifStep_keep w h pa i b f hc, if_neg (by omega)]

/-- Witness for the amended C2: a disposal-1 frame persists its composite
as the canvas. -/
theorem disposal_persistence_witness :
    (gifStep 1 1 true 0 (some (transparentCanvas 1 1)) af1).2 =
      some (gifStep 1 1 true 0 (some (transparentCanvas 1 1)) af1).1 :=
  (disposal_persistence 1 1 true 0 (transparentCanvas 1 1) af1).1 rfl

lemma pasteDelta_width (pa : Bool) (b : Img) (f : AnimFrame) :
    (pasteDelta pa b f).width = b.width := by
  cases pa <;> rfl

lemma pasteDelta_height (pa : Bool) (b : Img) (f : AnimFrame) :
    (pasteDelta pa b f).height = b.height := by
  cases pa <;> rfl

lemma gifStep_dims (w h : Nat) (pa : Bool) (i : Nat) (base : Option Img)
    (f : AnimFrame)
    (hbase : i = 0 ∨ ∃ b, base = some b ∧ b.width = w ∧ b.height = h) :
    ((gifStep w h pa i base f).1.width = w ∧ (gifStep w h pa i base f).1.height = h) ∧
    ∃ b, (gifStep w h pa i base f).2 = some b ∧ b.width = w ∧ b.height = h := by
  by_cases hc : i = 0 ∨ f.disposal = 2
  · rw [gifStep_reset w h pa i base f hc]
    refine ⟨⟨pasteDelta_width .., pasteDelta_height ..⟩, ?_⟩
    by_cases h1 : f.disposal = 1
    · exact ⟨_, by rw [if_pos h1], pasteDelta_width .., pasteDelta_height ..⟩
    · exact ⟨_, by rw [if_neg h1], rfl, rfl⟩
  · have hb2 : ∃ b, base = some b ∧ b.width = w ∧ b.height = h := by
      rcases hbase with h0 | hb
      · exact absurd (Or.inl h0) hc
      · exact hb
    obtain ⟨b, rfl, hbw, hbh⟩ := hb2
    rw [gifStep_keep w h pa i b f hc]
    refine ⟨⟨by rw [pasteDelta_width, hbw], by rw [pasteDelta_height, hbh]⟩, ?_⟩
    by_cases h1 : f.disposal = 1
    · exact ⟨_, by rw [if_pos h1], by rw [pasteDelta_width, hbw],
        by rw [pasteDelta_height, hbh]⟩
    · exact ⟨b, by rw [if_neg h1], hbw, hbh⟩

lemma composeFrom_spec (w h : Nat) (pa : Bool) :
    ∀ (fs : List AnimFrame) (i : Nat) (base : Option Img),
      (i = 0 ∨ ∃ b, base = some b ∧ b.width = w ∧ b.height = h) →
      (composeFrom w h pa i base fs).length = fs.length ∧
      ∀ g ∈ composeFrom w h pa i base fs, g.width = w ∧ g.height = h := by
  intro fs
  induction fs with
  | nil => intro i base _; exact ⟨rfl, by simp [composeFrom]⟩
  | cons f rest ih =>
    intro i base hbase
    obtain ⟨hcur, b, hb, hbw, hbh⟩ := gifStep_dims w h pa i base f hbase
    have hnext : i + 1 = 0 ∨ ∃ b2, (gifStep w h pa i base f).2 = some b2 ∧
        b2.width = w ∧ b2.height = h := Or.inr ⟨b, hb, hbw, hbh⟩
    obtain ⟨ihlen, ihmem⟩ := ih (i + 1) (gifStep w h pa i base f).2 hnext
    constructor
    · show (_ :: _).length = _
      simp [composeFrom, ihlen]
    · intro g hg
      rw [show composeFrom w h pa i base (f :: rest) =
        (gifStep w h pa i base f).1 ::
          composeFrom w h pa (i + 1) (gifStep w h pa i base f).2 rest from rfl,
        List.mem_cons] at hg
      rcases hg with hg | hg
      · subst hg; exact hcur
      · exact ihmem g hg

/-- Claim C3 counterexample: the 2x2 delta of `c3f` overruns the 1x1
canvas on both axes, yet the decode does not abort: a composited frame is
returned for its index (the paste is silently clipped). -/
theorem c3_oob_frame_emitted :
    1 < c3f.left + c3f.delta.width ∧
    (extract_frames_from_gif 1 1 true [c3f]).length = 1 := by
  decide

/-- Claim C3 (amended): the compositor performs no bounds check and has no
error state: for every frame list it returns exactly one canvas-sized
composited frame per input frame, with any out-of-canvas part of a delta
silently discarded by the clipped paste. -/
theorem compositor_total (w h : Nat) (pa : Bool) (fs : List AnimFrame) :
    (extract_frames_from_gif w h pa fs).length = fs.length ∧
    ∀ j, j < (extract_frames_from_gif w h pa fs).length →
      ((extract_frames_from_gif w h pa fs).getD j default).width = w ∧
      ((extract_frames_from_gif w h pa fs).getD j default).height = h := by
  obtain ⟨hlen, hmem⟩ := composeFrom_spec w h pa fs 0 none (Or.inl rfl)
  exact ⟨hlen, fun j hj => hmem _ (getD_mem_of_lt _ _ _ hj)⟩

/-- Witness for the amended C3: the frame emitted for the out-of-bounds
delta is canvas-sized. -/
theorem compositor_total_witness :
    ((extract_frames_from_gif 1 1 true [c3f]).getD 0 default).width = 1 :=
  ((compositor_total 1 1 true [c3f]).2 0 (by decide)).1

/-- Claim C1 counterexample: in the C1 scenario the claim requires frame 1
to be red outside the 2x2 blue square, in particular at (0, 0); the code
leaves (0, 0) fully transparent, because frame 0's RestoreToBackground
reset happened before frame 0 was drawn and frame 0's composite was never
persisted. -/
theorem c1_frame1_not_red :
    ¬ ((c1out.getD 1 default).pix 0 0 = redPx) := by
  decide

/-- Claim C1 (amended): on the two-frame scenario the resolved outputs are
frame 0 = all-red 4x4 and frame 1 = a fully transparent 4x4 canvas with the
2x2 blue square at (1, 1) (not red outside the square). -/
theorem c1_scenario :
    c1out.length = 2 ∧
    (∀ x, x < 4 → ∀ y, y < 4 → (c1out.getD 0 default).pix x y = redPx) ∧
    (∀ x, x < 4 → ∀ y, y < 4 → (c1out.getD 1 default).pix x y =
      (if 1 ≤ x ∧ x ≤ 2 ∧ 1 ≤ y ∧ y ≤ 2 then bluePx else clearPx)) := by
  decide

end Pyx
